import Mathlib

/-!
Verification of the core logic of the CMSE830-midterm Streamlit dashboard
(`streamlit_app.py`): the dynamic histogram re-binning procedure and the
correlation-matrix slice selector.

Histogram bins are modelled as records with a rational left edge and an
integer frequency; the pandas `groupby(index // step)` aggregation is
modelled as chunking the list of bins into consecutive groups of `step`
elements and folding each group with `min` on edges and `sum` on
frequencies, exactly as the `.agg` call in the source does.
-/

namespace FlightApp

/-- One row of `histogram_summary_ground_time.csv`: a left bin edge
(`bin_edges` column, a float, modelled as a rational) and a frequency
(`frequency` column, an integer). -/
structure HistBin where
  bin_edges : ℚ
  frequency : ℤ
  deriving Repr, DecidableEq

/-- Line 158 of `streamlit_app.py`:
`bin_step = max(1, len(histogram_summary) // num_bins)`. -/
def bin_step (n num_bins : ℕ) : ℕ :=
  max 1 (n / num_bins)

/-- Partition a list into consecutive chunks of `step` elements (the last
chunk may be shorter): the grouping performed by
`groupby(histogram_summary.index // bin_step)` on an integer range index. -/
def chunkList (step : ℕ) : List HistBin → List (List HistBin)
  | [] => []
  | x :: xs => (x :: xs.take (step - 1)) :: chunkList step (xs.drop (step - 1))
termination_by l => l.length
decreasing_by
  simp only [List.length_drop, List.length_cons]
  omega

/-- The pandas `min` aggregation applied to the `bin_edges` column of one
group, as requested by the `.agg` dictionary. -/
def aggMin : List HistBin → ℚ
  | [] => 0
  | x :: xs => xs.foldl (fun a b => min a b.bin_edges) x.bin_edges

/-- The pandas `sum` aggregation applied to the `frequency` column of one
group, as requested by the `.agg` dictionary. -/
def aggSum (g : List HistBin) : ℤ :=
  g.foldl (fun a b => a + b.frequency) 0

/-- One output row of the groupby-agg: min of the group's edges, sum of the
group's frequencies. -/
def aggregateGroup (g : List HistBin) : HistBin :=
  ⟨aggMin g, aggSum g⟩

/-- Lines 158-162 of `streamlit_app.py`:
`aggregated_bins = histogram_summary.groupby(histogram_summary.index // bin_step).agg({'bin_edges': 'min', 'frequency': 'sum'})`. -/
def aggregated_bins (bins : List HistBin) (num_bins : ℕ) : List HistBin :=
  (chunkList (bin_step bins.length num_bins) bins).map aggregateGroup

/-- Total frequency of a histogram summary. -/
def freqSum (l : List HistBin) : ℤ :=
  (l.map HistBin.frequency).sum

/-- Line 165 of `streamlit_app.py`:
`bin_edges_extended = pd.concat([aggregated_bins['bin_edges'], pd.Series([aggregated_bins['bin_edges'].iloc[-1] + 0.1])])`.
`iloc[-1]` on an empty column raises `IndexError`, modelled as `none`. -/
def bin_edges_extended (bins : List HistBin) (num_bins : ℕ) : Option (List ℚ) :=
  let agg := (aggregated_bins bins num_bins).map HistBin.bin_edges
  match agg.getLast? with
  | none => none
  | some last => some (agg ++ [last + 1/10])

/-! ### Basic lemmas about the chunking -/

/-- Concatenating the chunks gives back the original list. -/
theorem chunkList_join (step : ℕ) (l : List HistBin) :
    (chunkList step l).flatten = l := by
  induction l using chunkList.induct step with
  | case1 => simp [chunkList]
  | case2 x xs ih =>
      simp only [chunkList, List.flatten_cons, ih]
      simp [List.cons_append, List.take_append_drop]

/-- No chunk is empty. -/
theorem chunkList_ne_nil (step : ℕ) (l : List HistBin) :
    ∀ g ∈ chunkList step l, g ≠ [] := by
  induction l using chunkList.induct step with
  | case1 => simp [chunkList]
  | case2 x xs ih =>
      intro g hg
      simp only [chunkList, List.mem_cons] at hg
      rcases hg with rfl | hg
      · simp
      · exact ih g hg

/-- Every element of a chunk is an element of the original list. -/
theorem mem_of_mem_chunk (step : ℕ) (l : List HistBin) :
    ∀ g ∈ chunkList step l, ∀ b ∈ g, b ∈ l := by
  intro g hg b hb
  have : b ∈ (chunkList step l).flatten := List.mem_flatten.2 ⟨g, hg, hb⟩
  rwa [chunkList_join] at this

/-- Folding frequency addition from an accumulator adds the total. -/
theorem foldl_add_frequency (l : List HistBin) (a : ℤ) :
    l.foldl (fun a b => a + b.frequency) a = a + freqSum l := by
  induction l generalizing a with
  | nil => simp [freqSum]
  | cons x xs ih =>
      simp only [List.foldl_cons, ih, freqSum, List.map_cons, List.sum_cons]
      ring

/-- The pandas `sum` aggregation equals the total frequency of the group. -/
theorem aggSum_eq_freqSum (g : List HistBin) : aggSum g = freqSum g := by
  simp [aggSum, foldl_add_frequency]

theorem freqSum_append (l₁ l₂ : List HistBin) :
    freqSum (l₁ ++ l₂) = freqSum l₁ + freqSum l₂ := by
  simp [freqSum]

/-- The groupby-agg output has the same total frequency as its input. -/
theorem freqSum_chunk_agg (step : ℕ) (l : List HistBin) :
    freqSum ((chunkList step l).map aggregateGroup) = freqSum l := by
  induction l using chunkList.induct step with
  | case1 => simp [chunkList]
  | case2 x xs ih =>
      have hcons : ∀ (b : HistBin) (r : List HistBin),
          freqSum (b :: r) = b.frequency + freqSum r := by
        intro b r
        simp [freqSum]
      have hg : (aggregateGroup (x :: xs.take (step - 1))).frequency
          = freqSum (x :: xs.take (step - 1)) := by
        simp [aggregateGroup, aggSum_eq_freqSum]
      rw [chunkList, List.map_cons, hcons, hg, ih, ← freqSum_append]
      simp [List.cons_append, List.take_append_drop]

/-- With step 1 every chunk is a singleton. -/
theorem chunkList_one (l : List HistBin) :
    chunkList 1 l = l.map (fun x => [x]) := by
  induction l with
  | nil => simp [chunkList]
  | cons x xs ih =>
      rw [chunkList]
      simp [ih]

/-- A singleton group aggregates to its unique element. -/
theorem aggregateGroup_singleton (x : HistBin) : aggregateGroup [x] = x := by
  cases x
  simp [aggregateGroup, aggMin, aggSum]

/-- When the input is at most as long as the target count, the step is 1. -/
theorem bin_step_saturated {n k : ℕ} (h : n ≤ k) : bin_step n k = 1 := by
  rcases Nat.eq_zero_or_pos k with rfl | hk
  · interval_cases n
    simp [bin_step]
  · have h1 : n / k ≤ 1 := by
      calc n / k ≤ k / k := Nat.div_le_div_right h
      _ = 1 := Nat.div_self hk
    simp only [bin_step]
    omega

/-! ### Claim theorems about the histogram aggregation -/

/-- Concrete histogram summary used as a witness input. -/
def binsEx : List HistBin :=
  [⟨0, 5⟩, ⟨1/2, 10⟩, ⟨1, 7⟩, ⟨3/2, 3⟩]

/-- C1: for every histogram summary with non-negative integer frequencies
and every target bin count k in [5,30], the total frequency of the
aggregated bins equals the total frequency of the input bins. -/
theorem aggregate_conserves_frequency (bins : List HistBin) (k : ℕ)
    (hk₁ : 5 ≤ k) (hk₂ : k ≤ 30)
    (hnn : ∀ b ∈ bins, 0 ≤ b.frequency) :
    freqSum (aggregated_bins bins k) = freqSum bins := by
  unfold aggregated_bins
  exact freqSum_chunk_agg _ bins

/-- Witness for C1 at the concrete input `binsEx`, k = 5. -/
theorem aggregate_conserves_frequency_witness :
    freqSum (aggregated_bins binsEx 5) = freqSum binsEx :=
  aggregate_conserves_frequency binsEx 5 (by decide) (by decide) (by decide)

/-- C2: whenever the target count is at least the number of input bins,
the aggregation is the identity: the output list equals the input list
element-wise. -/
theorem aggregate_identity_at_saturation (bins : List HistBin) (k : ℕ)
    (h : bins.length ≤ k) :
    aggregated_bins bins k = bins := by
  unfold aggregated_bins
  rw [bin_step_saturated h, chunkList_one, List.map_map]
  have : (aggregateGroup ∘ fun x => [x]) = id := by
    funext x
    simp [aggregateGroup_singleton]
  rw [this, List.map_id]

/-- Witness for C2 at the concrete input `binsEx` (length 4), k = 7. -/
theorem aggregate_identity_at_saturation_witness :
    aggregated_bins binsEx 7 = binsEx :=
  aggregate_identity_at_saturation binsEx 7 (by decide)

/-- C9: on bins [(0.0,5),(0.5,10),(1.0,7),(1.5,3)] with target count 2 the
step is 2, the output is [(0.0,15),(1.0,10)], and the total frequency 25
is preserved. -/
theorem aggregate_concrete_example :
    bin_step binsEx.length 2 = 2 ∧
    aggregated_bins binsEx 2 = [⟨0, 15⟩, ⟨1, 10⟩] ∧
    freqSum (aggregated_bins binsEx 2) = 25 ∧
    freqSum binsEx = 25 := by
  refine ⟨by simp [bin_step, binsEx], ?_, ?_, by simp [freqSum, binsEx]⟩ <;>
    norm_num [aggregated_bins, bin_step, chunkList, aggregateGroup, aggMin,
      aggSum, freqSum, binsEx]

/-- C3 (code evaluated at the failing input): on an empty histogram summary
the groupby aggregation itself returns the empty list for every target
count, but the construction of the extended edge sequence is not guarded:
`aggregated_bins['bin_edges'].iloc[-1]` indexes an empty column and fails
(modelled as `none`) instead of being skipped. -/
theorem bin_edges_extended_empty_input (k : ℕ) :
    aggregated_bins [] k = [] ∧ bin_edges_extended [] k = none := by
  constructor
  · simp [aggregated_bins, chunkList]
  · simp [bin_edges_extended, aggregated_bins, chunkList]

/-- A list of non-negative frequencies has non-negative total. -/
theorem freqSum_nonneg (l : List HistBin) (h : ∀ b ∈ l, 0 ≤ b.frequency) :
    0 ≤ freqSum l := by
  apply List.sum_nonneg
  intro x hx
  rcases List.mem_map.1 hx with ⟨b, hb, rfl⟩
  exact h b hb

/-- C10: when every input frequency is non-negative and k is in [5,30],
every aggregated output frequency is non-negative. -/
theorem aggregate_frequency_nonneg (bins : List HistBin) (k : ℕ)
    (hk₁ : 5 ≤ k) (hk₂ : k ≤ 30)
    (hnn : ∀ b ∈ bins, 0 ≤ b.frequency) :
    ∀ b ∈ aggregated_bins bins k, 0 ≤ b.frequency := by
  intro b hb
  rcases List.mem_map.1 hb with ⟨g, hg, rfl⟩
  have hmem := mem_of_mem_chunk _ bins g hg
  have : (aggregateGroup g).frequency = freqSum g := by
    simp [aggregateGroup, aggSum_eq_freqSum]
  rw [this]
  exact freqSum_nonneg g (fun b hbg => hnn b (hmem b hbg))

/-- Witness for C10 at the concrete input `binsEx`, k = 5, instantiated at
the first output bin. -/
theorem aggregate_frequency_nonneg_witness :
    0 ≤ (HistBin.mk 0 5).frequency :=
  aggregate_frequency_nonneg binsEx 5 (by decide) (by decide) (by decide)
    (HistBin.mk 0 5)
    (by norm_num [aggregated_bins, bin_step, binsEx, chunkList, aggregateGroup,
      aggMin, aggSum])

/-- The number of chunks is the ceiling of length over step. -/
theorem chunkList_length (step : ℕ) (hs : 1 ≤ step) (l : List HistBin) :
    (chunkList step l).length = (l.length + step - 1) / step := by
  induction l using chunkList.induct step with
  | case1 =>
      rw [chunkList]
      simp only [List.length_nil, Nat.zero_add]
      rw [Nat.div_eq_of_lt (by omega)]
  | case2 x xs ih =>
      rw [chunkList]
      simp only [List.length_cons, ih, List.length_drop]
      have hr : xs.length + 1 + step - 1 = xs.length + step := by omega
      rw [hr, Nat.add_div_right _ (by omega)]
      have hkey : (xs.length - (step - 1) + step - 1) / step = xs.length / step := by
        rcases le_or_lt xs.length (step - 1) with hle | hlt
        · have h1 : xs.length - (step - 1) = 0 := Nat.sub_eq_zero_of_le hle
          rw [h1, Nat.div_eq_of_lt (by omega), Nat.div_eq_of_lt (by omega)]
        · have h2 : xs.length - (step - 1) + step - 1 = xs.length := by omega
          rw [h2]
      omega

/-- C4: for every non-empty histogram summary and target count k in
[5,30], the number of aggregated bins equals
`ceil(len(bins) / max(1, floor(len(bins)/k)))`. -/
theorem aggregate_group_count (bins : List HistBin) (k : ℕ)
    (hne : bins ≠ []) (hk₁ : 5 ≤ k) (hk₂ : k ≤ 30) :
    (aggregated_bins bins k).length = bins.length ⌈/⌉ bin_step bins.length k := by
  have hceil : ∀ a b : ℕ, a ⌈/⌉ b = (a + b - 1) / b := fun a b => rfl
  rw [hceil]
  unfold aggregated_bins
  rw [List.length_map]
  exact chunkList_length _ (le_max_left 1 _) bins

/-- Witness for C4 at the concrete input `binsEx`, k = 5: four bins, step
1, four groups. -/
theorem aggregate_group_count_witness :
    (aggregated_bins binsEx 5).length = binsEx.length ⌈/⌉ bin_step binsEx.length 5 :=
  aggregate_group_count binsEx 5 (by decide) (by decide) (by decide)

/-- Folding `min` from an accumulator below every element returns the
accumulator. -/
theorem foldl_min_eq_of_le (a : ℚ) (xs : List HistBin)
    (h : ∀ b ∈ xs, a ≤ b.bin_edges) :
    xs.foldl (fun a b => min a b.bin_edges) a = a := by
  induction xs generalizing a with
  | nil => rfl
  | cons x xs ih =>
      simp only [List.foldl_cons]
      rw [min_eq_left (h x (by simp))]
      exact ih a (fun b hb => h b (by simp [hb]))

/-- Folding `min` returns the accumulator or one of the edges. -/
theorem foldl_min_mem (a : ℚ) (xs : List HistBin) :
    xs.foldl (fun a b => min a b.bin_edges) a ∈ a :: xs.map HistBin.bin_edges := by
  induction xs generalizing a with
  | nil => simp
  | cons x xs ih =>
      simp only [List.foldl_cons]
      have hmem := ih (min a x.bin_edges)
      rcases List.mem_cons.1 hmem with h | h
      · rw [h]
        rcases le_total a x.bin_edges with h1 | h1
        · simp [min_eq_left h1]
        · simp [min_eq_right h1]
      · simp [h]

/-- The `min` aggregation of a non-empty group is one of its edges. -/
theorem aggMin_mem (g : List HistBin) (hg : g ≠ []) :
    aggMin g ∈ g.map HistBin.bin_edges := by
  cases g with
  | nil => exact absurd rfl hg
  | cons x xs =>
      have hmem := foldl_min_mem x.bin_edges xs
      simpa [aggMin] using hmem

/-- On a strictly ascending group the `min` aggregation is the first edge. -/
theorem aggMin_sorted_head (x : HistBin) (xs : List HistBin)
    (h : ((x :: xs).map HistBin.bin_edges).Pairwise (· < ·)) :
    aggMin (x :: xs) = x.bin_edges := by
  simp only [List.map_cons, List.pairwise_cons] at h
  apply foldl_min_eq_of_le
  intro b hb
  exact le_of_lt (h.1 b.bin_edges (List.mem_map_of_mem _ hb))

/-- Strict ascent of the input edges gives strict ascent of the per-group
`min` edges, in group order. -/
theorem chunk_aggMin_pairwise (step : ℕ) (l : List HistBin)
    (h : (l.map HistBin.bin_edges).Pairwise (· < ·)) :
    ((chunkList step l).map aggMin).Pairwise (· < ·) := by
  induction l using chunkList.induct step with
  | case1 => simp [chunkList]
  | case2 x xs ih =>
      rw [chunkList, List.map_cons]
      simp only [List.map_cons, List.pairwise_cons] at h
      obtain ⟨hx, hxs⟩ := h
      have hdrop : ((xs.drop (step - 1)).map HistBin.bin_edges).Pairwise (· < ·) :=
        hxs.sublist ((List.drop_sublist _ _).map _)
      refine List.pairwise_cons.2 ⟨?_, ih hdrop⟩
      intro m hm
      rcases List.mem_map.1 hm with ⟨g, hgmem, rfl⟩
      have htake : ((xs.take (step - 1)).map HistBin.bin_edges).Pairwise (· < ·) :=
        hxs.sublist ((List.take_sublist _ _).map _)
      have htakesorted :
          ((x :: xs.take (step - 1)).map HistBin.bin_edges).Pairwise (· < ·) := by
        rw [List.map_cons]
        refine List.pairwise_cons.2 ⟨?_, htake⟩
        intro e he
        rcases List.mem_map.1 he with ⟨b, hb, rfl⟩
        exact hx _ (List.mem_map_of_mem _ (List.mem_of_mem_take hb))
      rw [aggMin_sorted_head x _ htakesorted]
      have hgne := chunkList_ne_nil step _ g hgmem
      have hmem := aggMin_mem g hgne
      rcases List.mem_map.1 hmem with ⟨b, hbg, heq⟩
      have hbxs : b ∈ xs :=
        List.mem_of_mem_drop (mem_of_mem_chunk step _ g hgmem b hbg)
      rw [← heq]
      exact hx b.bin_edges (List.mem_map_of_mem _ hbxs)

/-- C8: for every histogram summary with strictly ascending left edges and
every k in [5,30], the left edges of the aggregated bins are strictly
ascending. -/
theorem aggregate_edges_strict_ascending (bins : List HistBin) (k : ℕ)
    (hk₁ : 5 ≤ k) (hk₂ : k ≤ 30)
    (hs : (bins.map HistBin.bin_edges).Pairwise (· < ·)) :
    ((aggregated_bins bins k).map HistBin.bin_edges).Pairwise (· < ·) := by
  unfold aggregated_bins
  rw [List.map_map]
  have hcomp : (HistBin.bin_edges ∘ aggregateGroup) = aggMin := by
    funext g
    rfl
  rw [hcomp]
  exact chunk_aggMin_pairwise _ bins hs

/-- Witness for C8 at the concrete input `binsEx`, k = 5. -/
theorem aggregate_edges_strict_ascending_witness :
    ((aggregated_bins binsEx 5).map HistBin.bin_edges).Pairwise (· < ·) :=
  aggregate_edges_strict_ascending binsEx 5 (by decide) (by decide)
    (by norm_num [binsEx, List.pairwise_cons])

/-! ### Correlation-matrix slice selector (lines 102-144 of
`streamlit_app.py`) -/

/-- The correlation matrix as loaded from `correlation_matrix.csv` by
`pd.read_csv`: the feature names label the columns, the rows carry the
default integer index `0..n-1` (row `i` holding the correlations of
feature `labels[i]`). `cell i j` is the value at row index `i`, column
index `j`. -/
structure CorrMatrix where
  labels : List String
  cell : ℕ → ℕ → ℚ

/-- Line 128 of `streamlit_app.py`:
`selected_correlation = full_correlation_matrix_df[[selected_feature]].transpose()`.
`df[[label]]` picks the COLUMN named `label` (raising `KeyError`, modelled
as `none`, when absent) and `transpose` turns it into a single row whose
entry at position `i` is the matrix cell at row `i`, column `label`. -/
def selected_correlation (m : CorrMatrix) (sel : String) : Option (List ℚ) :=
  if sel ∈ m.labels then
    some ((List.range m.labels.length).map (fun i => m.cell i (m.labels.indexOf sel)))
  else none

/-- The full grid of cell values of a matrix, row by row. -/
def matrixRows (m : CorrMatrix) : List (List ℚ) :=
  (List.range m.labels.length).map
    (fun i => (List.range m.labels.length).map (fun j => m.cell i j))

/-- The data handed to `px.imshow`: the displayed values, the x and y axis
labels, and the color range `zmin`/`zmax`. -/
structure HeatmapView where
  values : List (List ℚ)
  xlabels : List String
  ylabels : List String
  zmin : ℚ
  zmax : ℚ
  deriving Repr, DecidableEq

/-- Lines 113-124: the full-matrix heatmap —
`px.imshow(full_correlation_matrix_df, x=columns, y=columns, zmin=-1, zmax=1)`. -/
def fig_full_heatmap (m : CorrMatrix) : HeatmapView :=
  ⟨matrixRows m, m.labels, m.labels, -1, 1⟩

/-- Lines 132-143: the single-feature heatmap —
`px.imshow(selected_correlation, x=columns, y=[selected_feature], zmin=-1, zmax=1)`. -/
def fig_feature_heatmap (m : CorrMatrix) (sel : String) (row : List ℚ) : HeatmapView :=
  ⟨[row], m.labels, [sel], -1, 1⟩

/-- The dispatch on `selected_feature` of lines 110-144: the
"Full Correlation Matrix" sentinel shows the full heatmap, any other
selection goes through `df[[selected_feature]].transpose()`. -/
def matrixSlice (m : CorrMatrix) (sel : String) : Option HeatmapView :=
  if sel = "Full Correlation Matrix" then some (fig_full_heatmap m)
  else
    match selected_correlation m sel with
    | some row => some (fig_feature_heatmap m sel row)
    | none => none

/-- Stated from the spec's words, for comparison with the source: the ROW
of the matrix for feature X — `matrix["X"]` read across all columns. -/
def spec_row (m : CorrMatrix) (X : String) : List ℚ :=
  (List.range m.labels.length).map (fun j => m.cell (m.labels.indexOf X) j)

/-- Stated from the spec's words, for comparison with the source: the
COLUMN of the matrix for feature X, read down the rows. -/
def spec_col (m : CorrMatrix) (X : String) : List ℚ :=
  (List.range m.labels.length).map (fun i => m.cell i (m.labels.indexOf X))

/-- A concrete asymmetric 2×2 labeled matrix. -/
def asymEx : CorrMatrix :=
  ⟨["A", "B"], fun i j =>
    if i = 0 ∧ j = 1 then 1/2 else if i = 1 ∧ j = 0 then -(1/2) else 1⟩

/-- A concrete symmetric 2×2 labeled matrix. -/
def symEx : CorrMatrix :=
  ⟨["A", "B"], fun i j => if i = j then 1 else 1/2⟩

/-- C5 counterexample: on the asymmetric matrix `asymEx`, slicing by "A"
yields the COLUMN for "A" (values `[1, -1/2]`), not the row `matrix["A"]`
(values `[1, 1/2]`), so the claim fails as stated. -/
theorem selected_correlation_row_counterexample :
    selected_correlation asymEx "A" = some [1, -(1/2)] ∧
    spec_row asymEx "A" = [1, 1/2] ∧
    selected_correlation asymEx "A" ≠ some (spec_row asymEx "A") := by
  refine ⟨?_, ?_, ?_⟩ <;>
    norm_num [selected_correlation, spec_row, asymEx, List.range_succ]

/-- C5 amended: slicing by a known feature X returns exactly one row
labeled X with all of the matrix's column labels in original order, whose
values are the matrix's COLUMN for X (the transpose of `df[["X"]]`); when
the matrix is symmetric this coincides with the row `matrix["X"]`. -/
theorem selected_correlation_is_column (m : CorrMatrix) (X : String)
    (hX : X ∈ m.labels) (hXne : X ≠ "Full Correlation Matrix") :
    matrixSlice m X = some ⟨[spec_col m X], m.labels, [X], -1, 1⟩ ∧
    ((∀ i j, m.cell i j = m.cell j i) →
      matrixSlice m X = some ⟨[spec_row m X], m.labels, [X], -1, 1⟩) := by
  have hcol : matrixSlice m X = some ⟨[spec_col m X], m.labels, [X], -1, 1⟩ := by
    simp [matrixSlice, hXne, selected_correlation, hX, fig_feature_heatmap, spec_col]
  refine ⟨hcol, fun hsym => ?_⟩
  have hrow : spec_col m X = spec_row m X := by
    unfold spec_col spec_row
    exact List.map_congr_left (fun i _ => hsym i (m.labels.indexOf X))
  rw [hcol, hrow]

/-- Witness for the amended C5 at the symmetric matrix `symEx`, X = "A". -/
theorem selected_correlation_is_column_witness :
    matrixSlice symEx "A" = some ⟨[spec_col symEx "A"], symEx.labels, ["A"], -1, 1⟩ ∧
    ((∀ i j, symEx.cell i j = symEx.cell j i) →
      matrixSlice symEx "A" = some ⟨[spec_row symEx "A"], symEx.labels, ["A"], -1, 1⟩) :=
  selected_correlation_is_column symEx "A" (by decide) (by decide)

/-- C6 (code evaluated at the failing input): a selection that is neither
the sentinel nor a known feature label makes `df[[selection]]` fail — a
`KeyError` escaping to the caller, modelled as `none`, not a typed
NotFound result. -/
theorem matrixSlice_unknown_label_fails :
    matrixSlice asymEx "nonexistent" = none ∧
    selected_correlation asymEx "nonexistent" = none := by
  constructor <;> simp [matrixSlice, selected_correlation, asymEx]

/-- C7: selecting the "Full Correlation Matrix" sentinel yields the matrix
values unchanged, the full feature-label list on both axes, and the color
range fixed at [-1, 1]. -/
theorem matrixSlice_full_identity (m : CorrMatrix) :
    matrixSlice m "Full Correlation Matrix"
      = some ⟨matrixRows m, m.labels, m.labels, -1, 1⟩ := by
  simp [matrixSlice, fig_full_heatmap]

end FlightApp
